import Mathlib

/-!
Verification of the bidirectional audio transcoding proxy in `voice.py`
(Twilio <-> OpenAI Realtime bridge).

The development shallowly embeds the code:

* the resampling helpers `upsample_8k_to_24k` / `downsample_24k_to_8k`
  (voice.py lines 115-130) as computable functions on `List ℤ`
  (numpy `astype(np.int16)` truncates toward zero, which on the exact
  block mean is `Int.tdiv` of the block sum by 3);
* the mu-law codec `pcm16_to_mulaw` / `mulaw_to_pcm16`
  (voice.py lines 94-112) over exact reals, with `truncTZ` standing for
  numpy float-to-int conversion (truncation toward zero);
* the inbound pump `twilio_to_openai` (voice.py lines 188-232) as a step
  function on an explicit state, driven by a list of decoded telephony
  events, producing the list of directives sent to the upstream session;
* the outbound handler `openai_to_twilio` (voice.py lines 234-257) as a
  per-event function from the captured stream id and the upstream event
  to an optional outbound media message;
* the handler `media_stream` (voice.py lines 133-262) at the level the
  claims need: credential check, connect attempt, the session.update and
  greeting directives, then the inbound pump.
-/

namespace VoiceProxy

/-! ## Resampling (voice.py lines 115-130)

`upsample_8k_to_24k` is `np.repeat(pcm, 3)`: every sample emitted three
times in order.  `downsample_24k_to_8k` trims the input to a multiple of
three, then averages each block of three consecutive samples
(`reshape(-1,3).mean(axis=1).astype(np.int16)`); the float64 block mean of
three int16 values truncated toward zero is exactly `(a+b+c).tdiv 3`. -/

def upsample_8k_to_24k : List ℤ → List ℤ
  | [] => []
  | x :: rest => x :: x :: x :: upsample_8k_to_24k rest

def downsample_24k_to_8k : List ℤ → List ℤ
  | a :: b :: c :: rest => Int.tdiv (a + b + c) 3 :: downsample_24k_to_8k rest
  | _ => []

/-! ## Mu-law codec (voice.py lines 94-112), over exact reals

numpy's `astype` on a float array truncates toward zero. -/

/-- Truncation toward zero of a real number, the semantics of numpy
`astype` from float to an integer dtype. -/
noncomputable def truncTZ (x : ℝ) : ℤ := if 0 ≤ x then ⌊x⌋ else ⌈x⌉

/-- The mu-law expansion curve `sign y * ((1 + 255) ^ |y| - 1) / 255`
applied by `mulaw_to_pcm16` (voice.py line 111). -/
noncomputable def muExpand (y : ℝ) : ℝ :=
  Real.sign y * ((1 + 255 : ℝ) ^ |y| - 1) / 255

/-- The mu-law compression curve
`sign x * log1p(255 * |x|) / log1p(255)` applied by `pcm16_to_mulaw`
(voice.py line 99). -/
noncomputable def muCompress (x : ℝ) : ℝ :=
  Real.sign x * Real.log (1 + 255 * |x|) / Real.log (1 + 255)

/-- One byte of `pcm16_to_mulaw` (voice.py lines 94-102): clip the sample
to [-1, 1] after dividing by 32768, apply the compression curve, rescale
`(y + 1) / 2 * 255`, convert to `uint8` (truncation), and invert all bits
(`^ 0xFF`). -/
noncomputable def mulawEncodeByte (s : ℤ) : ℕ :=
  Nat.xor (truncTZ ((muCompress (min 1 (max (-1) ((s : ℝ) / 32768))) + 1)
      / 2 * 255)).toNat 255

/-- One sample of `mulaw_to_pcm16` (voice.py lines 105-112): invert all
bits (`^ 0xFF`), scale `(y / 255) * 2 - 1` into [-1, 1], apply the
expansion curve, rescale by 32768, clip to [-32768, 32767]
(`np.clip(v, -32768, 32767) = min 32767 (max (-32768) v)`), and convert
to `int16` (truncation). -/
noncomputable def mulawDecodeByte (b : ℕ) : ℤ :=
  truncTZ (min 32767 (max (-32768)
    (muExpand (((Nat.xor b 255 : ℕ) : ℝ) / 255 * 2 - 1) * 32768)))

/-- `pcm16_to_mulaw` (voice.py lines 94-102).  All numpy operations in the
body are elementwise, so the function is the per-sample map; the
`samples.size == 0` early return coincides with mapping over `[]`. -/
noncomputable def pcm16_to_mulaw (xs : List ℤ) : List ℕ :=
  xs.map mulawEncodeByte

/-- `mulaw_to_pcm16` (voice.py lines 105-112), the per-byte map; the
`mu.size == 0` early return coincides with mapping over `[]`. -/
noncomputable def mulaw_to_pcm16 (bs : List ℕ) : List ℤ :=
  bs.map mulawDecodeByte

/-- The decode direction exactly as §4.1 of the specification words it:
for each input byte `b`, invert all bits (`b XOR 0xFF`), scale the result
to [-1, 1], apply the inverse logarithmic curve
`sign(y) * ((1+mu)^|y| - 1) / mu` with `mu = 255`, scale to the 16-bit
range, and clamp every output sample to [-32768, 32767]. -/
noncomputable def compand_decode_spec_byte (b : ℕ) : ℤ :=
  truncTZ (max (-32768) (min 32767
    (Real.sign (((Nat.xor b 255 : ℕ) : ℝ) / 255 * 2 - 1)
        * ((1 + 255 : ℝ) ^ |((Nat.xor b 255 : ℕ) : ℝ) / 255 * 2 - 1| - 1) / 255
      * 32768)))

/-- Sequence-level form of the specification's `compand_decode`. -/
noncomputable def compand_decode_spec (bs : List ℕ) : List ℤ :=
  bs.map compand_decode_spec_byte

/-! ## Inbound telephony events and the inbound pump
(voice.py lines 188-232)

An inbound JSON message is modelled after the fields the pump reads:

* `start o`: a start event; `o = none` models a start event whose
  `start`/`streamSid` field is missing, on which `data["start"]["streamSid"]`
  raises `KeyError`;
* `media p`: a media event; `p = none` models a media event whose `media`
  object is missing (`data["media"]` raises `KeyError`); `p = some none`
  models a missing or empty `payload` (the `if not payload_b64` branch);
  `p = some (some bs)` carries the base64-decoded mu-law bytes;
* `other` is any event string different from the four recognized ones.

The decoded audio `pcm8 = mulaw_to_pcm16(ulaw)` has exactly the length of
`bs` (`mulaw_to_pcm16` is an elementwise map, see `mulaw_to_pcm16_length`),
so the `pcm8.size == 0` test of line 212 is the test `bs.isEmpty`. -/

inductive TelEvent where
  | connected : TelEvent
  | start : Option String → TelEvent
  | media : Option (Option (List ℕ)) → TelEvent
  | stop : TelEvent
  | other : TelEvent
deriving DecidableEq

/-- The mutable state shared by the pump closures (voice.py lines
184-186): `frames_since_commit`, `stream_sid`, `cancelled_once`.  The
counter is a natural number: the code only ever increments it by one or
resets it to zero, so it cannot go negative. -/
structure PumpState where
  frames_since_commit : ℕ
  stream_sid : Option String
  cancelled_once : Bool
deriving DecidableEq

def initPumpState : PumpState := ⟨0, none, false⟩

/-- A directive written to the upstream AI realtime socket.  `append bs`
records the inbound mu-law bytes `bs` of the frame being forwarded; the
actual payload sent on line 222-225 is
`base64(upsample_8k_to_24k(mulaw_to_pcm16 bs))`, a function of `bs`. -/
inductive Directive where
  | sessionUpdate : Directive
  | responseCreate : Directive
  | responseCancel : Directive
  | append : List ℕ → Directive
  | commit : Directive
deriving DecidableEq

/-- Outcome of one iteration of the `while True` loop of
`twilio_to_openai`: continue with a new state having emitted directives,
break out of the loop (`stop`), or raise an uncaught exception. -/
inductive StepOut where
  | cont : PumpState → List Directive → StepOut
  | halt : PumpState → StepOut
  | crash : StepOut
deriving DecidableEq

/-- `TWILIO_FRAME_MS` (voice.py line 182). -/
def TWILIO_FRAME_MS : ℕ := 20

/-- `MIN_COMMIT_MS` (voice.py line 183). -/
def MIN_COMMIT_MS : ℕ := 120

/-- One iteration of `twilio_to_openai` (voice.py lines 190-232) on one
received event. -/
def pumpStep (st : PumpState) (e : TelEvent) : StepOut :=
  match e with
  | .connected => .cont st []
  | .start none => .crash
  | .start (some sid) => .cont { st with stream_sid := some sid } []
  | .stop => .halt st
  | .other => .cont st []
  | .media none => .crash
  | .media (some none) => .cont st []
  | .media (some (some bs)) =>
      if bs.isEmpty then .cont st []
      else
        let out0 : List Directive :=
          if st.cancelled_once then [] else [Directive.responseCancel]
        let n := st.frames_since_commit + 1
        if MIN_COMMIT_MS ≤ n * TWILIO_FRAME_MS then
          .cont ⟨0, st.stream_sid, true⟩
            (out0 ++ [Directive.append bs, Directive.commit])
        else
          .cont ⟨n, st.stream_sid, true⟩ (out0 ++ [Directive.append bs])

/-- Result of running the pump on a list of events: still awaiting input,
cleanly terminated by a stop event, or terminated by an exception. -/
inductive PumpResult where
  | running : PumpState → PumpResult
  | stopped : PumpState → PumpResult
  | crashed : PumpResult
deriving DecidableEq

/-- Run `twilio_to_openai` over a list of inbound events, collecting the
directives sent upstream in order. -/
def pumpRun (st : PumpState) : List TelEvent → PumpResult × List Directive
  | [] => (.running st, [])
  | e :: es =>
    match pumpStep st e with
    | .crash => (.crashed, [])
    | .halt s => (.stopped s, [])
    | .cont s out =>
      let r := pumpRun s es
      (r.1, out ++ r.2)

/-- Events on which the pump does not raise: everything except a start
event with no stream identifier and a media event with no media object. -/
def eventOk : TelEvent → Bool
  | .start none => false
  | .media none => false
  | _ => true

def wfEvents (es : List TelEvent) : Bool := es.all eventOk

/-- A media event carrying a payload of non-zero decoded length. -/
def isValidMedia : TelEvent → Bool
  | .media (some (some bs)) => !bs.isEmpty
  | _ => false

/-- Number of media frames of non-zero decoded length the pump processes:
frames before the first stop event. -/
def validFrames : List TelEvent → ℕ
  | [] => 0
  | .stop :: _ => 0
  | e :: es => (if isValidMedia e then 1 else 0) + validFrames es

def hasStop : List TelEvent → Bool
  | [] => false
  | .stop :: _ => true
  | _ :: es => hasStop es

def isCommit : Directive → Bool
  | .commit => true
  | _ => false

def isAppend : Directive → Bool
  | .append _ => true
  | _ => false

def isCancel : Directive → Bool
  | .responseCancel => true
  | _ => false

def isSessionUpd : Directive → Bool
  | .sessionUpdate => true
  | _ => false

def resState : PumpResult → Option PumpState
  | .running s => some s
  | .stopped s => some s
  | .crashed => none

/-- A media frame of one (arbitrary) mu-law byte, the shape used in the
concrete scenarios. -/
def goodFrame : TelEvent := TelEvent.media (some (some [0]))

/-! ## The websocket handler `media_stream` (voice.py lines 133-262) -/

/-- Python truthiness of `OPENAI_API_KEY`: present and non-empty. -/
def apiKeyPresent : Option String → Bool
  | none => false
  | some s => !(s == "")

/-- The observable outcome of one run of `media_stream`: the directives
written to the upstream socket in order, whether the data pumps were
started, and whether the handler returned (at which point the framework
releases the telephony websocket). -/
structure SessionRun where
  upstream : List Directive
  pumpsRan : Bool
  closed : Bool
deriving DecidableEq

/-- `media_stream` (voice.py lines 133-262) at the granularity the claims
need.  `connectOk` models whether `session.ws_connect` succeeds; on
failure the `except` on line 261 is reached before any directive is sent
and the handler returns.  On success the handler first sends
`session.update` (lines 160-168) then the greeting `response.create`
(lines 171-179) and then runs the pumps; the outbound pump writes nothing
upstream, so the upstream directive sequence is the prelude followed by
the inbound pump's output. -/
def media_stream (apiKey : Option String) (connectOk : Bool)
    (es : List TelEvent) : SessionRun :=
  if apiKeyPresent apiKey = false then ⟨[], false, true⟩
  else if connectOk = false then ⟨[], false, true⟩
  else
    ⟨Directive.sessionUpdate :: Directive.responseCreate ::
        (pumpRun initPumpState es).2, true, true⟩

/-! ## Outbound handler `openai_to_twilio` (voice.py lines 234-257) -/

/-- An upstream event as read by `openai_to_twilio`: an audio delta
carrying (already base64-decoded) 24 kHz PCM16 samples, an error event,
or anything else. -/
inductive OAEvent where
  | pcmDelta : List ℤ → OAEvent
  | errorEvt : OAEvent
  | otherEvt : OAEvent
deriving DecidableEq

/-- An outbound telephony media message. -/
structure TelOut where
  sid : String
  payload : List ℕ
deriving DecidableEq

/-- Handling of one upstream event (voice.py lines 240-251): downsample,
mu-law encode, and drop the frame when no stream identifier has been
captured yet or the converted payload is empty
(`if not stream_sid or not ulaw: continue`). -/
noncomputable def outboundStep (stream_sid : Option String) (evt : OAEvent) :
    Option TelOut :=
  match evt with
  | .pcmDelta pcm24 =>
    let ulaw := pcm16_to_mulaw (downsample_24k_to_8k pcm24)
    match stream_sid with
    | none => none
    | some sid => if ulaw = [] then none else some ⟨sid, ulaw⟩
  | .errorEvt => none
  | .otherEvt => none

/-! ## Supporting lemmas -/

theorem mulaw_to_pcm16_length (bs : List ℕ) :
    (mulaw_to_pcm16 bs).length = bs.length := by
  simp [mulaw_to_pcm16]

theorem pcm16_to_mulaw_length (xs : List ℤ) :
    (pcm16_to_mulaw xs).length = xs.length := by
  simp [pcm16_to_mulaw]

theorem upsample_length : ∀ xs : List ℤ,
    (upsample_8k_to_24k xs).length = xs.length * 3
  | [] => rfl
  | x :: rest => by
      simp [upsample_8k_to_24k, upsample_length rest]
      ring

theorem downsample_length : ∀ xs : List ℤ,
    (downsample_24k_to_8k xs).length = xs.length / 3
  | [] => by simp [downsample_24k_to_8k]
  | [a] => by simp [downsample_24k_to_8k]
  | [a, b] => by simp [downsample_24k_to_8k]
  | a :: b :: c :: rest => by
      simp [downsample_24k_to_8k, downsample_length rest]
      omega

theorem downsample_upsample : ∀ xs : List ℤ,
    downsample_24k_to_8k (upsample_8k_to_24k xs) = xs
  | [] => rfl
  | x :: rest => by
      simp [upsample_8k_to_24k, downsample_24k_to_8k,
        downsample_upsample rest]
      have h3 : x + x + x = 3 * x := by ring
      rw [h3]
      exact Int.mul_tdiv_cancel_left x (by norm_num)

/-- The possible directive blocks a single pump iteration can emit. -/
theorem pumpStep_cont_cases (st : PumpState) (e : TelEvent) (s' : PumpState)
    (out : List Directive) (h : pumpStep st e = StepOut.cont s' out) :
    out = [] ∨ (∃ bs, out = [Directive.append bs])
    ∨ (∃ bs, out = [Directive.append bs, Directive.commit])
    ∨ (∃ bs, out = [Directive.responseCancel, Directive.append bs])
    ∨ (∃ bs, out = [Directive.responseCancel, Directive.append bs,
          Directive.commit]) := by
  cases e with
  | connected => simp [pumpStep] at h; exact Or.inl h.2
  | stop => simp [pumpStep] at h
  | other => simp [pumpStep] at h; exact Or.inl h.2
  | start o =>
      cases o with
      | none => simp [pumpStep] at h
      | some sid => simp [pumpStep] at h; exact Or.inl h.2
  | media p =>
      match p with
      | none => simp [pumpStep] at h
      | some none => simp [pumpStep] at h; exact Or.inl h.2
      | some (some bs) =>
          by_cases hbs : bs.isEmpty
          · simp [pumpStep, hbs] at h; exact Or.inl h.2
          · by_cases hn : MIN_COMMIT_MS ≤
                (st.frames_since_commit + 1) * TWILIO_FRAME_MS
            · cases hc : st.cancelled_once
              · simp [pumpStep, hbs, hn, hc] at h
                exact Or.inr (Or.inr (Or.inr (Or.inr ⟨bs, h.2.symm⟩)))
              · simp [pumpStep, hbs, hn, hc] at h
                exact Or.inr (Or.inr (Or.inl ⟨bs, h.2.symm⟩))
            · cases hc : st.cancelled_once
              · simp [pumpStep, hbs, hn, hc] at h
                exact Or.inr (Or.inr (Or.inr (Or.inl ⟨bs, h.2.symm⟩)))
              · simp [pumpStep, hbs, hn, hc] at h
                exact Or.inr (Or.inl ⟨bs, h.2.symm⟩)

/-- The inbound pump never writes a `session.update` directive. -/
theorem pump_no_sessionUpd : ∀ (es : List TelEvent) (st : PumpState),
    (pumpRun st es).2.countP isSessionUpd = 0
  | [], st => by simp [pumpRun]
  | e :: es, st => by
      simp only [pumpRun]
      cases hstep : pumpStep st e with
      | crash => simp
      | halt s => simp
      | cont s out =>
          have hout := pumpStep_cont_cases st e s out hstep
          have hrec := pump_no_sessionUpd es s
          rcases hout with rfl | ⟨bs, rfl⟩ | ⟨bs, rfl⟩ | ⟨bs, rfl⟩ | ⟨bs, rfl⟩ <;>
            simp [List.countP_cons, List.countP_append, isSessionUpd, hrec]

/-- Everything the claims need about one run of the inbound pump: result
kind, final counter and barge-in flag, and the number of commit, append
and cancel directives emitted, as functions of the number of valid media
frames processed. -/
theorem pump_spec (es : List TelEvent) : ∀ st : PumpState,
    wfEvents es = true → st.frames_since_commit < 6 →
    ∃ s' : PumpState,
      (pumpRun st es).1 =
          (if hasStop es then PumpResult.stopped s' else PumpResult.running s')
      ∧ s'.frames_since_commit = (st.frames_since_commit + validFrames es) % 6
      ∧ s'.cancelled_once = (st.cancelled_once || decide (0 < validFrames es))
      ∧ (pumpRun st es).2.countP isCommit =
          (st.frames_since_commit + validFrames es) / 6
      ∧ (pumpRun st es).2.countP isAppend = validFrames es
      ∧ (pumpRun st es).2.countP isCancel =
          (if st.cancelled_once then 0 else if 0 < validFrames es then 1
            else 0) := by
  induction es with
  | nil =>
      intro st hwf hlt
      exact ⟨st, by simp [pumpRun, hasStop],
        by simp [validFrames, Nat.mod_eq_of_lt hlt],
        by simp [validFrames],
        by simp [pumpRun, validFrames, Nat.div_eq_of_lt hlt],
        by simp [pumpRun, validFrames],
        by simp [pumpRun, validFrames]⟩
  | cons e es ih =>
      intro st hwf hlt
      rw [wfEvents, List.all_cons, Bool.and_eq_true] at hwf
      obtain ⟨hok, hwf'⟩ := hwf
      cases e with
      | connected =>
          obtain ⟨s', h1, h2, h3, h4, h5, h6⟩ := ih st hwf' hlt
          exact ⟨s', by simpa [pumpRun, pumpStep, hasStop] using h1,
            by simpa [validFrames, isValidMedia] using h2,
            by simpa [validFrames, isValidMedia] using h3,
            by simpa [pumpRun, pumpStep, validFrames, isValidMedia] using h4,
            by simpa [pumpRun, pumpStep, validFrames, isValidMedia] using h5,
            by simpa [pumpRun, pumpStep, validFrames, isValidMedia] using h6⟩
      | other =>
          obtain ⟨s', h1, h2, h3, h4, h5, h6⟩ := ih st hwf' hlt
          exact ⟨s', by simpa [pumpRun, pumpStep, hasStop] using h1,
            by simpa [validFrames, isValidMedia] using h2,
            by simpa [validFrames, isValidMedia] using h3,
            by simpa [pumpRun, pumpStep, validFrames, isValidMedia] using h4,
            by simpa [pumpRun, pumpStep, validFrames, isValidMedia] using h5,
            by simpa [pumpRun, pumpStep, validFrames, isValidMedia] using h6⟩
      | stop =>
          exact ⟨st, by simp [pumpRun, pumpStep, hasStop],
            by simp [validFrames, Nat.mod_eq_of_lt hlt],
            by simp [validFrames],
            by simp [pumpRun, pumpStep, validFrames, Nat.div_eq_of_lt hlt],
            by simp [pumpRun, pumpStep, validFrames],
            by simp [pumpRun, pumpStep, validFrames]⟩
      | start o =>
          cases o with
          | none => simp [eventOk] at hok
          | some sid =>
              obtain ⟨s', h1, h2, h3, h4, h5, h6⟩ :=
                ih { st with stream_sid := some sid } hwf' hlt
              exact ⟨s', by simpa [pumpRun, pumpStep, hasStop] using h1,
                by simpa [validFrames, isValidMedia] using h2,
                by simpa [validFrames, isValidMedia] using h3,
                by simpa [pumpRun, pumpStep, validFrames, isValidMedia]
                  using h4,
                by simpa [pumpRun, pumpStep, validFrames, isValidMedia]
                  using h5,
                by simpa [pumpRun, pumpStep, validFrames, isValidMedia]
                  using h6⟩
      | media p =>
          match p with
          | none => simp [eventOk] at hok
          | some none =>
              obtain ⟨s', h1, h2, h3, h4, h5, h6⟩ := ih st hwf' hlt
              exact ⟨s', by simpa [pumpRun, pumpStep, hasStop] using h1,
                by simpa [validFrames, isValidMedia] using h2,
                by simpa [validFrames, isValidMedia] using h3,
                by simpa [pumpRun, pumpStep, validFrames, isValidMedia]
                  using h4,
                by simpa [pumpRun, pumpStep, validFrames, isValidMedia]
                  using h5,
                by simpa [pumpRun, pumpStep, validFrames, isValidMedia]
                  using h6⟩
          | some (some bs) =>
              by_cases hbs : bs.isEmpty
              · obtain ⟨s', h1, h2, h3, h4, h5, h6⟩ := ih st hwf' hlt
                exact ⟨s',
                  by simpa [pumpRun, pumpStep, hbs, hasStop] using h1,
                  by simpa [validFrames, isValidMedia, hbs] using h2,
                  by simpa [validFrames, isValidMedia, hbs] using h3,
                  by simpa [pumpRun, pumpStep, validFrames, isValidMedia, hbs]
                    using h4,
                  by simpa [pumpRun, pumpStep, validFrames, isValidMedia, hbs]
                    using h5,
                  by simpa [pumpRun, pumpStep, validFrames, isValidMedia, hbs]
                    using h6⟩
              · rcases Nat.lt_or_ge (st.frames_since_commit + 1) 6 with hn | hn
                · have hcond : ¬ (MIN_COMMIT_MS ≤
                      (st.frames_since_commit + 1) * TWILIO_FRAME_MS) := by
                    simp [MIN_COMMIT_MS, TWILIO_FRAME_MS]; omega
                  obtain ⟨s', h1, h2, h3, h4, h5, h6⟩ :=
                    ih ⟨st.frames_since_commit + 1, st.stream_sid, true⟩
                      hwf' (by simpa using hn)
                  refine ⟨s', ?_, ?_, ?_, ?_, ?_, ?_⟩
                  · simpa [pumpRun, pumpStep, hbs, hcond, hasStop] using h1
                  · rw [h2]
                    simp only [validFrames, isValidMedia, hbs]
                    norm_num
                    omega
                  · rw [h3]
                    simp [validFrames, isValidMedia, hbs]
                  · have := h4
                    simp only [pumpRun, pumpStep, if_neg hbs, if_neg hcond]
                    cases hc : st.cancelled_once <;>
                      simp only [hc] at this ⊢ <;>
                      · simp [List.countP_append, List.countP_cons, isCommit,
                          this, validFrames, isValidMedia, hbs]
                        omega
                  · have := h5
                    simp only [pumpRun, pumpStep, if_neg hbs, if_neg hcond]
                    cases hc : st.cancelled_once <;>
                      simp only [hc] at this ⊢ <;>
                      · simp [List.countP_append, List.countP_cons, isAppend,
                          this, validFrames, isValidMedia, hbs]
                        try omega
                  · have := h6
                    simp only [pumpRun, pumpStep, if_neg hbs, if_neg hcond]
                    cases hc : st.cancelled_once <;>
                      simp only [hc] at this ⊢ <;>
                      · simp [List.countP_append, List.countP_cons, isCancel,
                          this, validFrames, isValidMedia, hbs]
                        try omega
                · have hc5 : st.frames_since_commit = 5 := by omega
                  have hcond : MIN_COMMIT_MS ≤
                      (st.frames_since_commit + 1) * TWILIO_FRAME_MS := by
                    simp [MIN_COMMIT_MS, TWILIO_FRAME_MS]; omega
                  obtain ⟨s', h1, h2, h3, h4, h5, h6⟩ :=
                    ih ⟨0, st.stream_sid, true⟩ hwf' (by simp)
                  refine ⟨s', ?_, ?_, ?_, ?_, ?_, ?_⟩
                  · simpa [pumpRun, pumpStep, hbs, hcond, hasStop] using h1
                  · rw [h2]
                    simp only [validFrames, isValidMedia, hbs]
                    norm_num
                    omega
                  · rw [h3]
                    simp [validFrames, isValidMedia, hbs]
                  · have := h4
                    simp only [pumpRun, pumpStep, if_neg hbs, if_pos hcond]
                    cases hc : st.cancelled_once <;>
                      simp only [hc] at this ⊢ <;>
                      · simp [List.countP_append, List.countP_cons, isCommit,
                          this, validFrames, isValidMedia, hbs]
                        omega
                  · have := h5
                    simp only [pumpRun, pumpStep, if_neg hbs, if_pos hcond]
                    cases hc : st.cancelled_once <;>
                      simp only [hc] at this ⊢ <;>
                      · simp [List.countP_append, List.countP_cons, isAppend,
                          this, validFrames, isValidMedia, hbs]
                        try omega
                  · have := h6
                    simp only [pumpRun, pumpStep, if_neg hbs, if_pos hcond]
                    cases hc : st.cancelled_once <;>
                      simp only [hc] at this ⊢ <;>
                      · simp [List.countP_append, List.countP_cons, isCancel,
                          this, validFrames, isValidMedia, hbs]
                        try omega

/-- Per-iteration characterization of the emitted directives: a commit is
emitted exactly when a valid media frame pushes the counter to the
threshold, an append exactly on a valid media frame, a cancel exactly on
a valid media frame while the barge-in flag is still unset; a commit
resets the counter and the barge-in flag is never cleared. -/
theorem pumpStep_char (st : PumpState) (e : TelEvent) (s' : PumpState)
    (out : List Directive) (h : pumpStep st e = StepOut.cont s' out) :
    (out.countP isCommit =
      if MIN_COMMIT_MS ≤ (st.frames_since_commit + 1) * TWILIO_FRAME_MS
          ∧ isValidMedia e = true then 1 else 0)
    ∧ (out.countP isAppend = if isValidMedia e = true then 1 else 0)
    ∧ (out.countP isCancel =
        if st.cancelled_once = false ∧ isValidMedia e = true then 1 else 0)
    ∧ (out.countP isCommit = 1 → s'.frames_since_commit = 0)
    ∧ (st.cancelled_once = true → s'.cancelled_once = true) := by
  cases e with
  | connected =>
      simp only [pumpStep, StepOut.cont.injEq] at h
      obtain ⟨hs, ho⟩ := h
      subst hs; subst ho
      refine ⟨?_, ?_, ?_, ?_, ?_⟩ <;> simp [isValidMedia]
  | other =>
      simp only [pumpStep, StepOut.cont.injEq] at h
      obtain ⟨hs, ho⟩ := h
      subst hs; subst ho
      refine ⟨?_, ?_, ?_, ?_, ?_⟩ <;> simp [isValidMedia]
  | stop => simp [pumpStep] at h
  | start o =>
      cases o with
      | none => simp [pumpStep] at h
      | some sid =>
          simp only [pumpStep, StepOut.cont.injEq] at h
          obtain ⟨hs, ho⟩ := h
          subst hs; subst ho
          refine ⟨?_, ?_, ?_, ?_, ?_⟩ <;> simp [isValidMedia]
  | media p =>
      match p with
      | none => simp [pumpStep] at h
      | some none =>
          simp only [pumpStep, StepOut.cont.injEq] at h
          obtain ⟨hs, ho⟩ := h
          subst hs; subst ho
          refine ⟨?_, ?_, ?_, ?_, ?_⟩ <;> simp [isValidMedia]
      | some (some bs) =>
          by_cases hbs : bs.isEmpty
          · simp only [pumpStep, hbs, if_true, StepOut.cont.injEq] at h
            obtain ⟨hs, ho⟩ := h
            subst hs; subst ho
            refine ⟨?_, ?_, ?_, ?_, ?_⟩ <;> simp [isValidMedia, hbs]
          · by_cases hn : MIN_COMMIT_MS ≤
                (st.frames_since_commit + 1) * TWILIO_FRAME_MS
            · cases hc : st.cancelled_once <;>
                · simp only [pumpStep, hbs, hn, hc, if_true, if_false,
                    Bool.false_eq_true, StepOut.cont.injEq, if_pos, if_neg] at h
                  obtain ⟨hs, ho⟩ := h
                  subst hs; subst ho
                  refine ⟨?_, ?_, ?_, ?_, ?_⟩ <;>
                    simp [isValidMedia, hbs, hn, hc, List.countP_cons,
                      isCommit, isAppend, isCancel]
            · cases hc : st.cancelled_once <;>
                · simp only [pumpStep, hbs, hn, hc, if_true, if_false,
                    Bool.false_eq_true, StepOut.cont.injEq, if_pos, if_neg] at h
                  obtain ⟨hs, ho⟩ := h
                  subst hs; subst ho
                  refine ⟨?_, ?_, ?_, ?_, ?_⟩ <;>
                    simp [isValidMedia, hbs, hn, hc, List.countP_cons,
                      isCommit, isAppend, isCancel]

/-- A stop event ends the inbound pump: no event after the first stop is
processed and no directive is emitted for it. -/
theorem pumpRun_stop_absorb :
    ∀ (pre : List TelEvent) (st : PumpState) (rest rest' : List TelEvent),
    pumpRun st (pre ++ TelEvent.stop :: rest)
      = pumpRun st (pre ++ TelEvent.stop :: rest')
  | [], st, rest, rest' => by simp [pumpRun, pumpStep]
  | e :: pre, st, rest, rest' => by
      have hrec := fun s => pumpRun_stop_absorb pre s rest rest'
      simp only [List.cons_append, pumpRun]
      cases pumpStep st e <;> simp [hrec]

theorem validFrames_replicate (k : ℕ) (rest : List TelEvent) :
    validFrames (List.replicate k goodFrame ++ TelEvent.stop :: rest) = k := by
  induction k with
  | zero => simp [validFrames]
  | succ n ihn =>
      have hv : validFrames (goodFrame ::
          (List.replicate n goodFrame ++ TelEvent.stop :: rest))
          = 1 + validFrames (List.replicate n goodFrame
              ++ TelEvent.stop :: rest) := by
        simp [validFrames, goodFrame, isValidMedia]
      rw [List.replicate_succ, List.cons_append, hv, ihn]
      omega

theorem wf_replicate_stop (k : ℕ) :
    wfEvents (List.replicate k goodFrame ++ [TelEvent.stop]) = true := by
  induction k with
  | zero => decide
  | succ n ihn =>
      simp only [List.replicate_succ, List.cons_append, wfEvents,
        List.all_cons, Bool.and_eq_true]
      exact ⟨rfl, ihn⟩

theorem hasStop_replicate (k : ℕ) (rest : List TelEvent) :
    hasStop (List.replicate k goodFrame ++ TelEvent.stop :: rest) = true := by
  induction k with
  | zero => rfl
  | succ n ihn => simpa [List.replicate_succ, goodFrame, hasStop] using ihn

/-! ## Claim theorems -/

/-- C1.  With frame duration 20 ms and minimum commit duration 120 ms, the
inbound pump emits a commit exactly once every 6 valid media frames (their
count divided by 6, over every well-formed event sequence, hence at every
prefix), the counter ends at the count modulo 6, and at each iteration a
commit is emitted exactly when the incremented counter reaches the
threshold on a frame of non-zero decoded length, the counter is reset to
zero immediately after a commit, and a commit is only ever emitted in a
block that also appends audio (never on an empty accumulation).  The
counter is a natural number, so it can never go negative. -/
theorem commit_threshold (es : List TelEvent) (hwf : wfEvents es = true) :
    ((pumpRun initPumpState es).2.countP isCommit = validFrames es / 6
      ∧ ∃ s' : PumpState,
          resState (pumpRun initPumpState es).1 = some s'
          ∧ s'.frames_since_commit = validFrames es % 6)
    ∧ ∀ (st : PumpState) (e : TelEvent) (s' : PumpState)
        (out : List Directive), pumpStep st e = StepOut.cont s' out →
        (out.countP isCommit =
          if MIN_COMMIT_MS ≤ (st.frames_since_commit + 1) * TWILIO_FRAME_MS
              ∧ isValidMedia e = true then 1 else 0)
        ∧ (out.countP isCommit = 1 →
            s'.frames_since_commit = 0 ∧ out.countP isAppend = 1) := by
  constructor
  · obtain ⟨s', h1, h2, h3, h4, h5, h6⟩ :=
      pump_spec es initPumpState hwf (by simp [initPumpState])
    refine ⟨by simpa [initPumpState] using h4, s', ?_,
      by simpa [initPumpState] using h2⟩
    cases hs : hasStop es <;> rw [hs] at h1 <;> simp at h1 <;>
      simp [h1, resState]
  · intro st e s' out h
    obtain ⟨hc1, hc2, hc3, hc4, hc5⟩ := pumpStep_char st e s' out h
    refine ⟨hc1, fun h1 => ⟨hc4 h1, ?_⟩⟩
    rw [hc1] at h1
    by_cases hv : isValidMedia e = true
    · rw [hc2, if_pos hv]
    · simp [hv] at h1

/-- C1 witness: seven valid media frames yield exactly one commit and a
final counter of one. -/
theorem commit_threshold_witness :
    wfEvents (List.replicate 7 goodFrame) = true
    ∧ (((pumpRun initPumpState (List.replicate 7 goodFrame)).2.countP isCommit
          = validFrames (List.replicate 7 goodFrame) / 6
        ∧ ∃ s' : PumpState,
            resState (pumpRun initPumpState (List.replicate 7 goodFrame)).1
              = some s'
            ∧ s'.frames_since_commit
              = validFrames (List.replicate 7 goodFrame) % 6)
      ∧ ∀ (st : PumpState) (e : TelEvent) (s' : PumpState)
          (out : List Directive), pumpStep st e = StepOut.cont s' out →
          (out.countP isCommit =
            if MIN_COMMIT_MS ≤ (st.frames_since_commit + 1) * TWILIO_FRAME_MS
                ∧ isValidMedia e = true then 1 else 0)
          ∧ (out.countP isCommit = 1 →
              s'.frames_since_commit = 0 ∧ out.countP isAppend = 1)) :=
  ⟨by decide, commit_threshold (List.replicate 7 goodFrame) (by decide)⟩

/-- C2.  After the greeting is requested the barge-in flag starts false;
over any well-formed event sequence exactly one `response.cancel` is
emitted when at least one media frame of non-zero decoded length arrives
and none otherwise, the cancel is emitted exactly at the first such frame
(the per-iteration characterization), and the one-shot flag, once set, is
never cleared by any later iteration or by the stop event. -/
theorem barge_in_once (es : List TelEvent) (hwf : wfEvents es = true) :
    ((pumpRun initPumpState es).2.countP isCancel
        = (if 0 < validFrames es then 1 else 0)
      ∧ ∃ s' : PumpState,
          resState (pumpRun initPumpState es).1 = some s'
          ∧ s'.cancelled_once = decide (0 < validFrames es))
    ∧ (∀ (st : PumpState) (e : TelEvent) (s' : PumpState)
        (out : List Directive), pumpStep st e = StepOut.cont s' out →
        (out.countP isCancel =
          if st.cancelled_once = false ∧ isValidMedia e = true then 1 else 0)
        ∧ (st.cancelled_once = true → s'.cancelled_once = true))
    ∧ (∀ (st : PumpState) (e : TelEvent) (s' : PumpState),
        pumpStep st e = StepOut.halt s' →
        s'.cancelled_once = st.cancelled_once) := by
  refine ⟨?_, ?_, ?_⟩
  · obtain ⟨s', h1, h2, h3, h4, h5, h6⟩ :=
      pump_spec es initPumpState hwf (by simp [initPumpState])
    refine ⟨by simpa [initPumpState] using h6, s', ?_,
      by simpa [initPumpState] using h3⟩
    cases hs : hasStop es <;> rw [hs] at h1 <;> simp at h1 <;>
      simp [h1, resState]
  · intro st e s' out h
    obtain ⟨_, _, hc3, _, hc5⟩ := pumpStep_char st e s' out h
    exact ⟨hc3, hc5⟩
  · intro st e s' h
    cases e with
    | connected => simp [pumpStep] at h
    | other => simp [pumpStep] at h
    | stop => simp only [pumpStep, StepOut.halt.injEq] at h; rw [← h]
    | start o => cases o <;> simp [pumpStep] at h
    | media p =>
        match p with
        | none => simp [pumpStep] at h
        | some none => simp [pumpStep] at h
        | some (some bs) =>
            by_cases hbs : bs.isEmpty <;>
              by_cases hn : MIN_COMMIT_MS ≤
                  (st.frames_since_commit + 1) * TWILIO_FRAME_MS <;>
              simp [pumpStep, hbs, hn] at h

/-- C2 witness: three valid media frames after the greeting trigger
exactly one cancellation. -/
theorem barge_in_once_witness :
    wfEvents (List.replicate 3 goodFrame) = true
    ∧ (((pumpRun initPumpState (List.replicate 3 goodFrame)).2.countP isCancel
          = (if 0 < validFrames (List.replicate 3 goodFrame) then 1 else 0)
        ∧ ∃ s' : PumpState,
            resState (pumpRun initPumpState (List.replicate 3 goodFrame)).1
              = some s'
            ∧ s'.cancelled_once
              = decide (0 < validFrames (List.replicate 3 goodFrame)))
      ∧ (∀ (st : PumpState) (e : TelEvent) (s' : PumpState)
          (out : List Directive), pumpStep st e = StepOut.cont s' out →
          (out.countP isCancel =
            if st.cancelled_once = false ∧ isValidMedia e = true then 1
            else 0)
          ∧ (st.cancelled_once = true → s'.cancelled_once = true))
      ∧ (∀ (st : PumpState) (e : TelEvent) (s' : PumpState),
          pumpStep st e = StepOut.halt s' →
          s'.cancelled_once = st.cancelled_once)) :=
  ⟨by decide, barge_in_once (List.replicate 3 goodFrame) (by decide)⟩

/-- C3 counterexample: a media event whose `media` object is missing, and
a start event whose stream identifier is missing, each raise `KeyError`
and kill the pump; a following valid media frame is never processed, so
the pump does not ignore the malformed event and continue. -/
theorem malformed_event_kills_pump :
    pumpRun initPumpState [TelEvent.media none, goodFrame]
      = (PumpResult.crashed, [])
    ∧ pumpRun initPumpState [TelEvent.start none, goodFrame]
      = (PumpResult.crashed, []) :=
  ⟨rfl, rfl⟩

/-- C3 amended: events of unknown kind, `connected` events, and media
events whose `payload` field is missing or empty are ignored and the pump
continues with the remaining events unchanged; but a media event whose
`media` object is missing, or a start event missing its stream
identifier, raises an uncaught `KeyError` that terminates the pump (and
with it the session), with no further event processed. -/
theorem malformed_events_amended (st : PumpState) (es : List TelEvent) :
    pumpRun st (TelEvent.other :: es) = pumpRun st es
    ∧ pumpRun st (TelEvent.connected :: es) = pumpRun st es
    ∧ pumpRun st (TelEvent.media (some none) :: es) = pumpRun st es
    ∧ pumpRun st (TelEvent.media none :: es) = (PumpResult.crashed, [])
    ∧ pumpRun st (TelEvent.start none :: es) = (PumpResult.crashed, []) := by
  refine ⟨?_, ?_, ?_, rfl, rfl⟩ <;> simp [pumpRun, pumpStep]

/-- C4.  `upsample_8k_to_24k` returns a sequence of length `len(x) * 3`
repeating each sample three times in order; `downsample_24k_to_8k`
returns a sequence of length `len(x) / 3` discarding any incomplete
trailing block; and downsampling an upsampled sequence recovers the
original exactly, sample for sample. -/
theorem resample_round_trip :
    (∀ xs : List ℤ, (upsample_8k_to_24k xs).length = xs.length * 3)
    ∧ (∀ xs : List ℤ, (downsample_24k_to_8k xs).length = xs.length / 3)
    ∧ (∀ xs : List ℤ, downsample_24k_to_8k (upsample_8k_to_24k xs) = xs) :=
  ⟨upsample_length, downsample_length, downsample_upsample⟩

/-- C10.  A stop event arriving while the counter is non-zero (k valid
frames, k not a multiple of 6) ends the pump with no flush: the trace is
identical whatever follows the stop event (no further upstream directive
of any kind), the number of commits stays k / 6 while k frames were
appended (so the audio appended after the last commit is left
uncommitted), and the pump halts with the non-zero counter k % 6. -/
theorem stop_discards_uncommitted (k : ℕ) (rest : List TelEvent)
    (hk : k % 6 ≠ 0) :
    pumpRun initPumpState (List.replicate k goodFrame ++ TelEvent.stop :: rest)
        = pumpRun initPumpState
            (List.replicate k goodFrame ++ [TelEvent.stop])
    ∧ (pumpRun initPumpState
        (List.replicate k goodFrame ++ TelEvent.stop :: rest)).2.countP
          isCommit = k / 6
    ∧ (pumpRun initPumpState
        (List.replicate k goodFrame ++ TelEvent.stop :: rest)).2.countP
          isAppend = k
    ∧ ∃ s' : PumpState,
        (pumpRun initPumpState
          (List.replicate k goodFrame ++ TelEvent.stop :: rest)).1
            = PumpResult.stopped s'
        ∧ s'.frames_since_commit = k % 6
        ∧ s'.frames_since_commit ≠ 0 := by
  have habs := pumpRun_stop_absorb (List.replicate k goodFrame)
    initPumpState rest []
  obtain ⟨s', h1, h2, h3, h4, h5, h6⟩ :=
    pump_spec (List.replicate k goodFrame ++ [TelEvent.stop]) initPumpState
      (wf_replicate_stop k) (by simp [initPumpState])
  have hvf : validFrames (List.replicate k goodFrame ++ [TelEvent.stop])
      = k := validFrames_replicate k []
  have hstop : hasStop (List.replicate k goodFrame ++ [TelEvent.stop])
      = true := hasStop_replicate k []
  rw [hstop] at h1
  simp only [if_true] at h1
  refine ⟨habs, ?_, ?_, s', ?_, ?_, ?_⟩
  · rw [habs, h4, hvf]
    simp [initPumpState]
  · rw [habs, h5, hvf]
  · rw [habs, h1]
  · rw [h2, hvf]
    simp [initPumpState]
  · rw [h2, hvf]
    simpa [initPumpState] using hk

/-- C10 witness: seven valid frames then stop, with a trailing event that
is never processed. -/
theorem stop_discards_uncommitted_witness :
    7 % 6 ≠ 0
    ∧ (pumpRun initPumpState
          (List.replicate 7 goodFrame ++ TelEvent.stop :: [TelEvent.other])
        = pumpRun initPumpState
            (List.replicate 7 goodFrame ++ [TelEvent.stop])
      ∧ (pumpRun initPumpState
          (List.replicate 7 goodFrame
            ++ TelEvent.stop :: [TelEvent.other])).2.countP isCommit = 7 / 6
      ∧ (pumpRun initPumpState
          (List.replicate 7 goodFrame
            ++ TelEvent.stop :: [TelEvent.other])).2.countP isAppend = 7
      ∧ ∃ s' : PumpState,
          (pumpRun initPumpState
            (List.replicate 7 goodFrame
              ++ TelEvent.stop :: [TelEvent.other])).1
              = PumpResult.stopped s'
          ∧ s'.frames_since_commit = 7 % 6
          ∧ s'.frames_since_commit ≠ 0) :=
  ⟨by decide, stop_discards_uncommitted 7 [TelEvent.other] (by decide)⟩

/-- C8.  If the AI credential is absent (or empty), or the upstream
connection attempt fails, `media_stream` sends no upstream directive,
never starts either pump, and returns (closing the telephony
connection): the session goes straight to its terminal closed state. -/
theorem setup_failure_closes (apiKey : Option String) (connectOk : Bool)
    (es : List TelEvent)
    (h : apiKeyPresent apiKey = false ∨ connectOk = false) :
    media_stream apiKey connectOk es =
      ⟨[], false, true⟩ := by
  rcases h with h | h
  · simp [media_stream, h]
  · cases hk : apiKeyPresent apiKey <;> simp [media_stream, h, hk]

/-- C8 witness: a missing credential short-circuits the session. -/
theorem setup_failure_closes_witness :
    (apiKeyPresent none = false ∨ true = false)
    ∧ media_stream none true [goodFrame] = ⟨[], false, true⟩ :=
  ⟨Or.inl rfl, setup_failure_closes none true [goodFrame] (Or.inl rfl)⟩

/-- C9.  In a session whose upstream connection is established, exactly
one `session.update` directive is sent; it is the very first upstream
directive, and it precedes every `input_audio_buffer.append`. -/
theorem session_update_once_first (apiKey : Option String)
    (es : List TelEvent) (h : apiKeyPresent apiKey = true) :
    (media_stream apiKey true es).upstream.countP isSessionUpd = 1
    ∧ (media_stream apiKey true es).upstream.head?
        = some Directive.sessionUpdate
    ∧ ∀ (i : ℕ) (d : Directive),
        (media_stream apiKey true es).upstream[i]? = some d →
        isAppend d = true →
        ∃ j, j < i ∧ (media_stream apiKey true es).upstream[j]?
            = some Directive.sessionUpdate := by
  have hu : (media_stream apiKey true es).upstream
      = Directive.sessionUpdate :: Directive.responseCreate ::
          (pumpRun initPumpState es).2 := by
    simp [media_stream, h]
  refine ⟨?_, ?_, ?_⟩
  · rw [hu]
    simp [List.countP_cons, isSessionUpd, pump_no_sessionUpd]
  · rw [hu]
    rfl
  · intro i d hgd happ
    refine ⟨0, ?_, by rw [hu]; rfl⟩
    cases i with
    | zero =>
        rw [hu] at hgd
        simp only [List.getElem?_cons_zero, Option.some.injEq] at hgd
        rw [← hgd] at happ
        simp [isAppend] at happ
    | succ n => exact Nat.succ_pos n

/-- C9 witness: a configured session on a one-frame call. -/
theorem session_update_once_first_witness :
    apiKeyPresent (some "sk-test") = true
    ∧ ((media_stream (some "sk-test") true [goodFrame]).upstream.countP
          isSessionUpd = 1
      ∧ (media_stream (some "sk-test") true [goodFrame]).upstream.head?
          = some Directive.sessionUpdate
      ∧ ∀ (i : ℕ) (d : Directive),
          (media_stream (some "sk-test") true [goodFrame]).upstream[i]?
            = some d →
          isAppend d = true →
          ∃ j, j < i ∧
            (media_stream (some "sk-test") true [goodFrame]).upstream[j]?
              = some Directive.sessionUpdate) :=
  ⟨rfl, session_update_once_first (some "sk-test") [goodFrame] rfl⟩

/-- C7.  The outbound adapter drops an AI audio delta silently when no
telephony start event has been processed yet (no stream identifier
captured), whatever the event, and likewise emits nothing when the
converted payload is empty. -/
theorem outbound_drops (sid : String) (pcm24 : List ℤ)
    (hempty : pcm16_to_mulaw (downsample_24k_to_8k pcm24) = []) :
    (∀ evt : OAEvent, outboundStep none evt = none)
    ∧ outboundStep (some sid) (OAEvent.pcmDelta pcm24) = none := by
  constructor
  · intro evt
    cases evt <;> simp [outboundStep]
  · simp [outboundStep, hempty]

/-- C7 witness: two 24 kHz samples downsample to nothing, so the frame
is dropped even with a stream identifier captured. -/
theorem outbound_drops_witness :
    pcm16_to_mulaw (downsample_24k_to_8k [5, 5]) = []
    ∧ ((∀ evt : OAEvent, outboundStep none evt = none)
      ∧ outboundStep (some "MZ123") (OAEvent.pcmDelta [5, 5]) = none) :=
  ⟨by simp [pcm16_to_mulaw, downsample_24k_to_8k],
    outbound_drops "MZ123" [5, 5]
      (by simp [pcm16_to_mulaw, downsample_24k_to_8k])⟩

/-- Clipping to [-32768, 32767] written in either nesting order is the
same function. -/
theorem clip_comm (v : ℝ) :
    min (32767 : ℝ) (max (-32768) v) = max (-32768) (min 32767 v) := by
  rw [max_min_distrib_left]
  congr 1
  rw [max_eq_right (by norm_num : (-32768 : ℝ) ≤ 32767)]

/-- C6.  `mulaw_to_pcm16` computes, per byte, exactly the specification
formula: invert all bits, scale to [-1, 1], apply
`sign(y) * ((1+mu)^|y| - 1) / mu` with `mu = 255`, scale to the 16-bit
range and clamp to [-32768, 32767]; and the empty input yields the empty
output. -/
theorem decode_matches_spec :
    (∀ bs : List ℕ, mulaw_to_pcm16 bs = compand_decode_spec bs)
    ∧ mulaw_to_pcm16 [] = [] := by
  constructor
  · intro bs
    unfold mulaw_to_pcm16 compand_decode_spec
    apply List.map_congr_left
    intro b _
    unfold mulawDecodeByte compand_decode_spec_byte muExpand
    rw [clip_comm]
  · rfl

/-! ## Analysis of the mu-law curves, toward the round-trip error bound -/

theorem log256_pos : 0 < Real.log 256 :=
  Real.log_pos (by norm_num)

theorem log256_lt : Real.log 256 < 5.5451774464 := by
  have h2 : (256 : ℝ) = 2 ^ (8 : ℕ) := by norm_num
  rw [h2, Real.log_pow]
  have := Real.log_two_lt_d9
  push_cast
  linarith

theorem rpow256 (t : ℝ) : (256 : ℝ) ^ t = Real.exp (t * Real.log 256) := by
  rw [Real.rpow_def_of_pos (by norm_num : (0 : ℝ) < 256), mul_comm]

theorem rpow256_one_le {t : ℝ} (ht : 0 ≤ t) : 1 ≤ (256 : ℝ) ^ t := by
  have h := Real.rpow_le_rpow_of_exponent_le
    (by norm_num : (1 : ℝ) ≤ 256) ht
  rwa [Real.rpow_zero] at h

theorem rpow256_le_256 {t : ℝ} (ht : t ≤ 1) : (256 : ℝ) ^ t ≤ 256 := by
  have h := Real.rpow_le_rpow_of_exponent_le
    (by norm_num : (1 : ℝ) ≤ 256) ht
  rwa [Real.rpow_one] at h

theorem muExpand_of_nonneg {y : ℝ} (hy : 0 ≤ y) :
    muExpand y = ((256 : ℝ) ^ y - 1) / 255 := by
  unfold muExpand
  rcases eq_or_lt_of_le hy with h | h
  · rw [← h]
    simp [Real.sign_zero, Real.rpow_zero]
  · rw [Real.sign_of_pos h, abs_of_pos h, one_mul]
    norm_num

theorem muExpand_neg_eq (y : ℝ) : muExpand (-y) = -muExpand y := by
  unfold muExpand
  rw [abs_neg, Real.sign_neg]
  ring

theorem muExpand_nonneg {y : ℝ} (hy : 0 ≤ y) : 0 ≤ muExpand y := by
  rw [muExpand_of_nonneg hy]
  have := rpow256_one_le hy
  linarith

theorem muExpand_mono_nonneg {a b : ℝ} (ha : 0 ≤ a) (hab : a ≤ b) :
    muExpand a ≤ muExpand b := by
  have hb : 0 ≤ b := le_trans ha hab
  rw [muExpand_of_nonneg ha, muExpand_of_nonneg hb]
  have h := Real.rpow_le_rpow_of_exponent_le
    (by norm_num : (1 : ℝ) ≤ 256) hab
  linarith

theorem muExpand_mono {a b : ℝ} (hab : a ≤ b) : muExpand a ≤ muExpand b := by
  rcases le_or_lt 0 a with ha | ha
  · exact muExpand_mono_nonneg ha hab
  · rcases le_or_lt 0 b with hb | hb
    · have h1 : muExpand a ≤ 0 := by
        have h2 := muExpand_neg_eq (-a)
        rw [neg_neg] at h2
        rw [h2]
        have := muExpand_nonneg (le_of_lt (neg_pos.mpr ha))
        linarith
      exact le_trans h1 (muExpand_nonneg hb)
    · have h2 := muExpand_neg_eq (-a)
      have h3 := muExpand_neg_eq (-b)
      rw [neg_neg] at h2 h3
      rw [h2, h3]
      have h4 : muExpand (-b) ≤ muExpand (-a) :=
        muExpand_mono_nonneg (by linarith) (by linarith)
      linarith

theorem muExpand_neg_one : muExpand (-1) = -1 := by
  have h := muExpand_neg_eq 1
  rw [h, muExpand_of_nonneg (zero_le_one), Real.rpow_one]
  norm_num

theorem muCompress_neg_eq (x : ℝ) : muCompress (-x) = -muCompress x := by
  unfold muCompress
  rw [abs_neg, Real.sign_neg]
  ring

theorem muCompress_of_pos {x : ℝ} (hx : 0 < x) :
    muCompress x = Real.log (1 + 255 * x) / Real.log 256 := by
  unfold muCompress
  rw [Real.sign_of_pos hx, abs_of_pos hx, one_mul]
  norm_num

theorem muExpand_muCompress_pos {x : ℝ} (hx : 0 < x) :
    muExpand (muCompress x) = x := by
  rw [muCompress_of_pos hx]
  have hlpos : 0 < Real.log (1 + 255 * x) :=
    Real.log_pos (by linarith)
  have hqpos : 0 ≤ Real.log (1 + 255 * x) / Real.log 256 :=
    le_of_lt (div_pos hlpos log256_pos)
  rw [muExpand_of_nonneg hqpos, rpow256,
    div_mul_cancel₀ _ (ne_of_gt log256_pos),
    Real.exp_log (by linarith)]
  ring

theorem muExpand_muCompress (x : ℝ) : muExpand (muCompress x) = x := by
  rcases lt_trichotomy x 0 with hx | hx | hx
  · have h1 := muCompress_neg_eq (-x)
    rw [neg_neg] at h1
    have h2 : muCompress x = -muCompress (-x) := by rw [← h1]
    rw [h2, muExpand_neg_eq, muExpand_muCompress_pos (by linarith)]
    ring
  · rw [hx]
    unfold muCompress
    simp [Real.sign_zero, muExpand, Real.rpow_zero]
  · exact muExpand_muCompress_pos hx

theorem muCompress_mem_pos {x : ℝ} (hx : 0 < x) (h2 : x ≤ 1) :
    -1 ≤ muCompress x ∧ muCompress x ≤ 1 := by
  rw [muCompress_of_pos hx]
  have hlpos : 0 < Real.log (1 + 255 * x) := Real.log_pos (by linarith)
  have hle : Real.log (1 + 255 * x) ≤ Real.log 256 := by
    apply Real.log_le_log (by linarith)
    linarith
  constructor
  · have := div_pos hlpos log256_pos
    linarith
  · rw [div_le_one log256_pos]
    exact hle

theorem muCompress_mem {x : ℝ} (h1 : -1 ≤ x) (h2 : x ≤ 1) :
    -1 ≤ muCompress x ∧ muCompress x ≤ 1 := by
  rcases lt_trichotomy x 0 with hx | hx | hx
  · have hmem := muCompress_mem_pos (x := -x) (by linarith) (by linarith)
    have hn := muCompress_neg_eq (-x)
    rw [neg_neg] at hn
    have h3 : muCompress x = -muCompress (-x) := by rw [← hn]
    rw [h3]
    constructor <;> linarith [hmem.1, hmem.2]
  · rw [hx]
    unfold muCompress
    simp [Real.sign_zero]
  · exact muCompress_mem_pos hx h2

/-- Difference bound for the expansion curve: moving the argument down by
a step within [-1, 1] moves the value down by at most
`256/255 * (exp(step * log 256) - 1)`. -/
theorem muExpand_diff_le {y1 y : ℝ} (h1 : -1 ≤ y1) (h2 : y1 ≤ y)
    (h3 : y ≤ 1) :
    muExpand y - muExpand y1 ≤
      256 / 255 * (Real.exp ((y - y1) * Real.log 256) - 1) := by
  rw [← rpow256 (y - y1)]
  rcases le_or_lt 0 y1 with hy1 | hy1
  · have hy : 0 ≤ y := le_trans hy1 h2
    rw [muExpand_of_nonneg hy, muExpand_of_nonneg hy1]
    have hsplit : (256 : ℝ) ^ y = 256 ^ y1 * 256 ^ (y - y1) := by
      rw [← Real.rpow_add (by norm_num : (0 : ℝ) < 256)]
      ring_nf
    have h256 : (256 : ℝ) ^ y1 ≤ 256 := rpow256_le_256 (le_trans h2 h3)
    have hge1 : 1 ≤ (256 : ℝ) ^ (y - y1) := rpow256_one_le (by linarith)
    have key : 0 ≤ (256 - (256 : ℝ) ^ y1) * ((256 : ℝ) ^ (y - y1) - 1) :=
      mul_nonneg (by linarith) (by linarith)
    nlinarith [hsplit, key]
  · rcases le_or_lt 0 y with hy | hy
    · have e2 : muExpand y1 = -(((256 : ℝ) ^ (-y1) - 1) / 255) := by
        have hn := muExpand_neg_eq (-y1)
        rw [neg_neg] at hn
        rw [show muExpand y1 = -muExpand (-y1) by rw [← hn],
          muExpand_of_nonneg (by linarith : (0 : ℝ) ≤ -y1)]
      rw [muExpand_of_nonneg hy, e2]
      have hsplit : (256 : ℝ) ^ (y - y1) = 256 ^ y * 256 ^ (-y1) := by
        rw [← Real.rpow_add (by norm_num : (0 : ℝ) < 256)]
        ring_nf
      have ha : 1 ≤ (256 : ℝ) ^ y := rpow256_one_le hy
      have hb : 1 ≤ (256 : ℝ) ^ (-y1) := rpow256_one_le (by linarith)
      have key : 0 ≤ ((256 : ℝ) ^ y - 1) * ((256 : ℝ) ^ (-y1) - 1) :=
        mul_nonneg (by linarith) (by linarith)
      nlinarith [hsplit, key]
    · have e1 : muExpand y = -(((256 : ℝ) ^ (-y) - 1) / 255) := by
        have hn := muExpand_neg_eq (-y)
        rw [neg_neg] at hn
        rw [show muExpand y = -muExpand (-y) by rw [← hn],
          muExpand_of_nonneg (by linarith : (0 : ℝ) ≤ -y)]
      have e2 : muExpand y1 = -(((256 : ℝ) ^ (-y1) - 1) / 255) := by
        have hn := muExpand_neg_eq (-y1)
        rw [neg_neg] at hn
        rw [show muExpand y1 = -muExpand (-y1) by rw [← hn],
          muExpand_of_nonneg (by linarith : (0 : ℝ) ≤ -y1)]
      rw [e1, e2]
      have hsplit : (256 : ℝ) ^ (-y1) = 256 ^ (-y) * 256 ^ (y - y1) := by
        rw [← Real.rpow_add (by norm_num : (0 : ℝ) < 256)]
        ring_nf
      have h256 : (256 : ℝ) ^ (-y) ≤ 256 := rpow256_le_256 (by linarith)
      have hge1 : 1 ≤ (256 : ℝ) ^ (y - y1) := rpow256_one_le (by linarith)
      have key : 0 ≤ (256 - (256 : ℝ) ^ (-y)) * ((256 : ℝ) ^ (y - y1) - 1) :=
        mul_nonneg (by linarith) (by linarith)
      nlinarith [hsplit, key]

/-- Numeric bound on the exponential near zero, by elementary algebra
from `1 + t ≤ exp t`. -/
theorem exp_small {u : ℝ} (h0 : 0 ≤ u) (h1 : u ≤ 1 / 20) :
    Real.exp u - 1 ≤ 20 / 19 * u := by
  have hx : Real.exp u ≤ 20 / 19 := by
    have h2 : (1 : ℝ) - 1 / 20 ≤ Real.exp (-(1 / 20)) := by
      have := Real.add_one_le_exp (-(1 / 20 : ℝ))
      linarith
    have h3 : Real.exp u ≤ Real.exp (1 / 20) := Real.exp_le_exp.mpr h1
    have h4 : Real.exp (1 / 20 : ℝ) * Real.exp (-(1 / 20 : ℝ)) = 1 := by
      rw [← Real.exp_add]
      norm_num
    nlinarith [Real.exp_pos (-(1 / 20 : ℝ)), Real.exp_pos (1 / 20 : ℝ)]
  have h5 : (1 : ℝ) - u ≤ Real.exp (-u) := by
    have := Real.add_one_le_exp (-u)
    linarith
  have h6 : Real.exp u * Real.exp (-u) = 1 := by
    rw [← Real.exp_add]
    simp
  have h7 : Real.exp u * (1 - u) ≤ 1 := by
    calc Real.exp u * (1 - u) ≤ Real.exp u * Real.exp (-u) :=
          mul_le_mul_of_nonneg_left h5 (le_of_lt (Real.exp_pos u))
      _ = 1 := h6
  have h8 : u * Real.exp u ≤ u * (20 / 19) :=
    mul_le_mul_of_nonneg_left hx h0
  nlinarith [h7, h8]

/-- Per-sample round-trip error bound: encoding a 16-bit sample to mu-law
and decoding it back moves it by at most 1536 (the true maximal
quantization error of this 8-bit logarithmic coder is just over 1506; the
decoded value never exceeds the original). -/
theorem mulaw_byte_round (s : ℤ) (hlo : -32768 ≤ s) (hhi : s ≤ 32767) :
    |mulawDecodeByte (mulawEncodeByte s) - s| ≤ 1536 := by
  have hs1 : (-32768 : ℝ) ≤ (s : ℝ) := by exact_mod_cast hlo
  have hs2 : (s : ℝ) ≤ 32767 := by exact_mod_cast hhi
  set x : ℝ := (s : ℝ) / 32768 with hxdef
  have hsx : (s : ℝ) = x * 32768 := by
    rw [hxdef]
    field_simp
  have hx1 : (-1 : ℝ) ≤ x := by
    rw [hxdef, le_div_iff₀ (by norm_num : (0 : ℝ) < 32768)]
    linarith
  have hx2 : x ≤ 1 := by
    rw [hxdef, div_le_iff₀ (by norm_num : (0 : ℝ) < 32768)]
    linarith
  have hclip : min 1 (max (-1) ((s : ℝ) / 32768)) = x := by
    rw [← hxdef, max_eq_right hx1, min_eq_right hx2]
  set y : ℝ := muCompress x with hydef
  obtain ⟨hya, hyb⟩ := muCompress_mem hx1 hx2
  have hinv : muExpand y = x := muExpand_muCompress x
  have hv0 : 0 ≤ (y + 1) / 2 * 255 := by nlinarith
  have hv255 : (y + 1) / 2 * 255 ≤ 255 := by nlinarith
  have htz : truncTZ ((y + 1) / 2 * 255) = ⌊(y + 1) / 2 * 255⌋ := by
    unfold truncTZ
    rw [if_pos hv0]
  set b : ℤ := ⌊(y + 1) / 2 * 255⌋ with hbdef
  have hb0 : 0 ≤ b := Int.floor_nonneg.mpr hv0
  have henc : mulawEncodeByte s = Nat.xor b.toNat 255 := by
    unfold mulawEncodeByte
    rw [hclip, ← hydef, htz]
  have hxor : (Nat.xor (Nat.xor b.toNat 255) 255 : ℕ) = b.toNat := by
    show b.toNat ^^^ 255 ^^^ 255 = b.toNat
    rw [Nat.xor_assoc, Nat.xor_self, Nat.xor_zero]
  have hcast : ((b.toNat : ℕ) : ℝ) = (b : ℝ) := by
    rw [← Int.cast_natCast, Int.toNat_of_nonneg hb0]
  set y1 : ℝ := (b : ℝ) / 255 * 2 - 1 with hy1def
  have hfl1 : (b : ℝ) ≤ (y + 1) / 2 * 255 := Int.floor_le _
  have hfl2 : (y + 1) / 2 * 255 - 1 < (b : ℝ) := Int.sub_one_lt_floor _
  have hy1le : y1 ≤ y := by
    rw [hy1def]
    nlinarith
  have hy1gt : y - 2 / 255 < y1 := by
    rw [hy1def]
    nlinarith
  have hy1ge : (-1 : ℝ) ≤ y1 := by
    have hbr : (0 : ℝ) ≤ (b : ℝ) := by exact_mod_cast hb0
    have := div_nonneg hbr (by norm_num : (0 : ℝ) ≤ 255)
    rw [hy1def]
    linarith
  set w : ℝ := muExpand y1 with hwdef
  have hwle : w ≤ x := by
    rw [← hinv]
    exact muExpand_mono hy1le
  have hwge1 : (-1 : ℝ) ≤ w := by
    have h := muExpand_mono hy1ge
    rwa [muExpand_neg_one] at h
  have hdiff : x - w ≤
      256 / 255 * (Real.exp ((y - y1) * Real.log 256) - 1) := by
    rw [← hinv, hwdef]
    exact muExpand_diff_le hy1ge hy1le hyb
  have hu1 : 0 ≤ (y - y1) * Real.log 256 :=
    mul_nonneg (by linarith) (le_of_lt log256_pos)
  have huA : (y - y1) * Real.log 256 ≤ 2 / 255 * Real.log 256 :=
    mul_le_mul_of_nonneg_right (by linarith) (le_of_lt log256_pos)
  have huB : (y - y1) * Real.log 256 ≤ 2 / 255 * 5.5451774464 := by
    have := log256_lt
    linarith
  have hu2 : (y - y1) * Real.log 256 ≤ 1 / 20 := by linarith
  have hexp := exp_small hu1 hu2
  have hstep : Real.exp ((y - y1) * Real.log 256) - 1
      ≤ 20 / 19 * (2 / 255 * 5.5451774464) := by linarith
  have herr : x - w ≤ 256 / 255 * (20 / 19 * (2 / 255 * 5.5451774464)) := by
    have h9 : 256 / 255 * (Real.exp ((y - y1) * Real.log 256) - 1)
        ≤ 256 / 255 * (20 / 19 * (2 / 255 * 5.5451774464)) := by linarith
    linarith
  have hwlo : (-32768 : ℝ) ≤ w * 32768 := by linarith
  have hwhi : w * 32768 ≤ 32767 := by linarith [hwle, hsx, hs2]
  have hclip2 : min (32767 : ℝ) (max (-32768) (w * 32768)) = w * 32768 := by
    rw [max_eq_right hwlo, min_eq_right hwhi]
  have hdec : mulawDecodeByte (mulawEncodeByte s) = truncTZ (w * 32768) := by
    rw [henc]
    unfold mulawDecodeByte
    rw [hxor, hcast, ← hy1def, hwdef, hclip2]
  have hvs : w * 32768 ≤ (s : ℝ) := by linarith [hwle, hsx]
  have htr1 : ((truncTZ (w * 32768) : ℤ) : ℝ) ≤ (s : ℝ) := by
    unfold truncTZ
    by_cases h : (0 : ℝ) ≤ w * 32768
    · rw [if_pos h]
      calc ((⌊w * 32768⌋ : ℤ) : ℝ) ≤ w * 32768 := Int.floor_le _
        _ ≤ (s : ℝ) := hvs
    · rw [if_neg h]
      have hcc : ⌈w * 32768⌉ ≤ ⌈((s : ℤ) : ℝ)⌉ := Int.ceil_le_ceil hvs
      rw [Int.ceil_intCast] at hcc
      exact_mod_cast hcc
  have htr2 : w * 32768 - 1 < ((truncTZ (w * 32768) : ℤ) : ℝ) := by
    unfold truncTZ
    by_cases h : (0 : ℝ) ≤ w * 32768
    · rw [if_pos h]
      exact Int.sub_one_lt_floor _
    · rw [if_neg h]
      have := Int.le_ceil (w * 32768)
      linarith
  have hs32 : (s : ℝ) - w * 32768 ≤ 1535 := by
    rw [hsx]
    linarith [herr]
  have hfinal : |((mulawDecodeByte (mulawEncodeByte s) : ℤ) : ℝ) - (s : ℝ)|
      ≤ 1536 := by
    rw [hdec, abs_le]
    constructor <;> linarith [htr1, htr2, hs32]
  exact_mod_cast hfinal

/-- C5.  Round trip through the mu-law coder: for every sequence of
16-bit samples, decoding the encoding yields a sequence of the same
length whose samples each differ from the original by at most 1536 — a
bounded per-sample quantization error, not exact equality. -/
theorem compand_round_trip (xs : List ℤ)
    (hx : ∀ s ∈ xs, -32768 ≤ s ∧ s ≤ 32767) :
    List.Forall₂ (fun a b => |a - b| ≤ 1536)
      (mulaw_to_pcm16 (pcm16_to_mulaw xs)) xs := by
  induction xs with
  | nil => simp [mulaw_to_pcm16, pcm16_to_mulaw]
  | cons a l ih =>
      have ha := hx a (List.mem_cons_self a l)
      simp only [pcm16_to_mulaw, mulaw_to_pcm16, List.map_cons]
      exact List.Forall₂.cons (mulaw_byte_round a ha.1 ha.2)
        (ih fun t ht => hx t (List.mem_cons_of_mem a ht))

/-- C5 witness: the silent sample and a loud sample both stay within the
bound. -/
theorem compand_round_trip_witness :
    (∀ s ∈ [(0 : ℤ), 12345], -32768 ≤ s ∧ s ≤ 32767)
    ∧ List.Forall₂ (fun a b => |a - b| ≤ 1536)
        (mulaw_to_pcm16 (pcm16_to_mulaw [0, 12345])) [0, 12345] :=
  ⟨by decide, compand_round_trip [0, 12345] (by decide)⟩

end VoiceProxy
